import Mathlib

/-!
Verification of the clique-percolation-method (CPM) implementation in
`cpm.go` against its specification.

The Go program is shallowly embedded: graph nodes are identified with
natural numbers (pointer identity in Go becomes value identity of the
node id; in the Go code a node is a pointer to a `GraphNode` record and
distinct allocations are distinct pointers), a graph is an adjacency
function `Nat → List Nat` (each
node's `neighbors` slice), candidate lists and clique lists (singly
linked lists of node slices in Go) become `List (List Nat)` with the
head of the Lean list corresponding to the head pointer of the Go list.
All definitions are executable and mirror the control flow of the Go
functions of the same name; the doc comment of each definition names
the function it embeds.
-/

namespace CPM

/-- Embeds `IsDuplicate` (cpm.go lines 378-397).  The Go method walks the
candidate list; for each `item` it initialises `match_count` with
`len(cc.nodes)` and decrements it once for every node of `cc` that occurs
in `item` (the inner loop breaks at the first occurrence), returning
`true` the moment the counter reaches zero.  The counter reaches zero for
some `item` exactly when `cc` is non-empty and every node of `cc` occurs
in `item`. -/
def IsDuplicate (cc : List Nat) (clist : List (List Nat)) : Bool :=
  clist.any (fun item => decide (cc ≠ [] ∧ ∀ x ∈ cc, x ∈ item))

/-- One iteration of the inner `for i := range item.nodes` loop of
`GetCliqueCandidates` (cpm.go lines 230-244): copy `item`, overwrite
position `i` with the removed `node`, and prepend the new candidate to
the accumulated list unless `IsDuplicate` rejects it. -/
def addCand (node : Nat) (item : List Nat) (acc2 : List (List Nat)) (i : Nat) :
    List (List Nat) :=
  let nc := item.set i node
  if IsDuplicate nc acc2 then acc2 else nc :: acc2

/-- The inner loop of `GetCliqueCandidates` for a single `item` of the
recursively obtained list (cpm.go lines 230-244). -/
def substOne (node : Nat) (item : List Nat) (acc : List (List Nat)) :
    List (List Nat) :=
  (List.range item.length).foldl (addCand node item) acc

/-- The outer `for item := clique_list; ...` loop of `GetCliqueCandidates`
(cpm.go lines 229-245): `return_clique_list` starts as the recursively
obtained `clique_list` and accumulates the substituted candidates. -/
def substAll (node : Nat) (clique_list : List (List Nat)) : List (List Nat) :=
  clique_list.foldl (fun acc item => substOne node item acc) clique_list

/-- Embeds `GetCliqueCandidates` (cpm.go lines 210-247).  `k` is a Go
`int`; every `k < 2` (including negative values) is handled by the first
guard, so modelling `k` as a natural number is faithful.  For the empty
list the Go guards always return `nil`: either `k < 2`, or
`0 = len(node_list) < k-1`; the case `len(node_list) == k-1 == 0` would
require `k == 1`, which the first guard has already caught. -/
def GetCliqueCandidates (k : Nat) : List Nat → List (List Nat)
  | [] => []
  | node :: rest =>
    if k < 2 then []
    else if (node :: rest).length < k - 1 then []
    else if (node :: rest).length = k - 1 then [node :: rest]
    else substAll node (GetCliqueCandidates k rest)

/-- Embeds `IsConnected` (cpm.go lines 360-369): scans `sn`'s neighbor
slice for the pointer `cn`. -/
def IsConnected (adj : Nat → List Nat) (cn sn : Nat) : Bool :=
  decide (cn ∈ adj sn)

/-- The connectivity test of `MakeCliqueList` (cpm.go lines 330-340): the
two nested index loops check `IsConnected(item.nodes[i], item.nodes[j])`
for every pair of positions `i < j`, which is exactly `List.Pairwise`. -/
def allPairsConnected (adj : Nat → List Nat) (nodes : List Nat) : Bool :=
  decide (nodes.Pairwise (fun a b => IsConnected adj a b = true))

/-- Embeds `MakeCliqueList` (cpm.go lines 322-353): for every candidate
that passes the pairwise-connectivity test, a clique consisting of the
candidate's nodes followed by the examination node is prepended to the
output list. -/
def MakeCliqueList (adj : Nat → List Nat) (candidate_list : List (List Nat))
    (examination_node : Nat) : List (List Nat) :=
  candidate_list.foldl (fun acc item =>
    if allPairsConnected adj item then (item ++ [examination_node]) :: acc else acc) []

/-- The number of index pairs `(i, j)` with `item[i] = clique[j]`; this is
how often the `match_count` counter of `NotRecorded` (cpm.go lines
406-425) is decremented for a given `item` (its inner loop has no
`break`), and also the counter of `Kminus1CommonNodes` (lines 482-497). -/
def commonPairCount (c1 c2 : List Nat) : Nat :=
  (c1.map (fun n => c2.count n)).sum

/-- The per-item test of `NotRecorded` (cpm.go lines 406-425): `item` is
considered a match for `clique` when the lengths agree and the
`match_count` counter, initialised with `len(item.nodes)` and decremented
once per matching index pair, reaches zero — i.e. when `item` is
non-empty and the number of matching pairs is at least `len(item)`. -/
def cliqueMatchB (item clique : List Nat) : Bool :=
  decide (item.length = clique.length ∧ item ≠ [] ∧
    item.length ≤ commonPairCount item clique)

/-- Embeds `NotRecorded` (cpm.go lines 406-425). -/
def NotRecorded (clique : List Nat) (clique_list : List (List Nat)) : Bool :=
  !(clique_list.any (fun item => cliqueMatchB item clique))

/-- Embeds `MergeCliques` (cpm.go lines 432-455; identical to
`AppendClique`, lines 1075-1098).  A `nil` destination list is returned
unchanged (the incoming list is dropped).  Otherwise each source clique
is appended at the tail — hence visible to the `NotRecorded` scan of
later source cliques, which receives the head pointer of the growing
destination list. -/
def MergeCliques (dest_clique_list src_clique_list : List (List Nat)) :
    List (List Nat) :=
  if dest_clique_list.isEmpty then []
  else src_clique_list.foldl
    (fun acc clique => if NotRecorded clique acc then acc ++ [clique] else acc)
    dest_clique_list

/-- The merge step of `main` (cpm.go lines 663-667):  when the global
clique list is still `nil` the per-anchor list becomes the global list
directly; otherwise `MergeCliques` folds it in. -/
def mergeStep (global incoming : List (List Nat)) : List (List Nat) :=
  if global.isEmpty then incoming else MergeCliques global incoming

/-- The clique-collection loop of `main` (cpm.go lines 658-669): for every
node of the graph, generate candidates from its neighbor list, verify
them into cliques, and merge the result into the global clique list
(skipping nodes whose candidate list is `nil`). -/
def runPipeline (adj : Nat → List Nat) (nodes : List Nat) (k : Nat) :
    List (List Nat) :=
  nodes.foldl (fun global v =>
    let cands := GetCliqueCandidates k (adj v)
    if cands.isEmpty then global
    else mergeStep global (MakeCliqueList adj cands v)) []

/-- Embeds `Kminus1CommonNodes` (cpm.go lines 482-497): the counter is
incremented once per matching index pair of the two associated cliques
and the function returns `true` the moment the counter equals `k - 1`.
Hence it returns `true` iff `k - 1 ≥ 1` and the total number of matching
pairs is at least `k - 1` (for a Go `int` `k ≤ 1` the test
`common_node_count == k-1` can never fire, which the natural-number
condition `1 ≤ k - 1` reproduces). -/
def Kminus1CommonNodes (c1 c2 : List Nat) (k : Nat) : Bool :=
  decide (1 ≤ k - 1 ∧ k - 1 ≤ commonPairCount c1 c2)

/-- Embeds `AddNeighbors` (cpm.go lines 505-511) for the community node at
index `i`: every other community node whose associated clique shares
`k-1` nodes is appended, in graph order.  Community nodes are fresh
allocations, so Go's pointer inequality `gn != node` is index
inequality. -/
def communityNeighbors (cl : List (List Nat)) (k : Nat) (i : Nat) : List Nat :=
  (List.range cl.length).filter
    (fun j => j != i && Kminus1CommonNodes (cl.getD i []) (cl.getD j []) k)

/-- Embeds `CreateCommunityGraph` (cpm.go lines 523-539): one community
node per clique-list entry (here: the pair of the associated clique and
the neighbor index list).  The generated string label (`CreateLabel`) is
not modelled; no claim refers to it. -/
def CreateCommunityGraph (clique_list : List (List Nat)) (k : Nat) :
    List (List Nat × List Nat) :=
  (List.range clique_list.length).map
    (fun i => (clique_list.getD i [], communityNeighbors clique_list k i))

/-- The model graph built by `main` (cpm.go lines 1190-1248): node `i`
stands for the vertex `vi`, and the adjacency lists are exactly the
`append` sequences of `main`. -/
def modelAdj (v : Nat) : List Nat :=
  if v = 1 then [2, 3]
  else if v = 2 then [1, 3]
  else if v = 3 then [1, 2, 4, 5]
  else if v = 4 then [3, 5, 6, 7]
  else if v = 5 then [3, 4, 6, 7]
  else if v = 6 then [4, 5, 7, 8]
  else if v = 7 then [4, 5, 6, 8]
  else if v = 8 then [6, 7, 9, 10]
  else if v = 9 then [8, 10]
  else if v = 10 then [8, 9]
  else []

/-- The iteration order of `main`'s clique loop (cpm.go lines 1255-1265):
the ten model-graph vertices in order. -/
def modelNodes : List Nat := [1, 2, 3, 4, 5, 6, 7, 8, 9, 10]

/-! ### Graph-definition parser (`ParseGraphDefFile`, cpm.go lines 548-631)

The file/regex plumbing (`os.Open`, `bufio`, the two regular
expressions, splitting the right-hand side at spaces) is pure I/O
adaptation; we embed the parser on its structured input: the list of
lines, each already split into the declared label and the list of
neighbor labels appearing after the colon. -/

/-- Embeds the node-creation phase of `ParseGraphDefFile` (cpm.go lines
566-614): every line appends one freshly created node to the graph.  The
duplicate-label check of the source (lines 574-578) tests `graph == nil`
immediately AFTER the `append`, so it can never fire; it is embedded
verbatim (the emptiness test on the just-extended list). -/
def addNodes : List (String × List String) → List String → Except String (List String)
  | [], graph => .ok graph
  | (label, _) :: rest, graph =>
    let graph2 := graph ++ [label]
    if graph2 = [] then
      .error (label ++ ": duplicate node; unable to add to graph")
    else addNodes rest graph2

/-- Embeds `GetNode` (cpm.go lines 137-144): the first node whose label
matches, as an index into the node list (Go returns the pointer; indices
play the role of pointers). -/
def GetNode (labels : List String) (label : String) : Option Nat :=
  labels.findIdx? (fun l => l = label)

/-- Embeds the neighbor-resolution inner loop of `ParseGraphDefFile`
(cpm.go lines 617-628): each neighbor label is looked up with `GetNode`;
an unknown label aborts with the source's error message. -/
def resolveNeighbors (labels : List String) : List String → Except String (List Nat)
  | [] => .ok []
  | nl :: rest =>
    match GetNode labels nl with
    | none => .error (nl ++ ": doesn't exist")
    | some i =>
      match resolveNeighbors labels rest with
      | .error e => .error e
      | .ok is => .ok (i :: is)

/-- The neighbor-resolution loop over all recorded neighbor
specifications (cpm.go lines 617-628).  The node declared on line `j` is
node `j` of the graph; its resolved neighbor indices are returned in
line order.  Lines without neighbors contribute an empty list (the Go
code records no `NeighborSpec` for them). -/
def resolveAll (labels : List String) : List (String × List String) →
    Except String (List (List Nat))
  | [] => .ok []
  | (_, nbrs) :: rest =>
    match resolveNeighbors labels nbrs with
    | .error e => .error e
    | .ok is =>
      match resolveAll labels rest with
      | .error e => .error e
      | .ok adj => .ok (is :: adj)

/-- Embeds `ParseGraphDefFile` (cpm.go lines 548-631) on structured
input: first all nodes are created (phase 1), then all neighbor
references are resolved (phase 2).  The result is the list of node
labels together with the index-based adjacency lists. -/
def ParseGraphDef (lines : List (String × List String)) :
    Except String (List String × List (List Nat)) :=
  match addNodes lines [] with
  | .error e => .error e
  | .ok labels =>
    match resolveAll labels lines with
    | .error e => .error e
    | .ok adj => .ok (labels, adj)

/-! ### Slice/heap model of `GetCliqueCandidates`

For the frame claim about `GetCliqueCandidates` (the function never
writes through its input slice) the Go memory is made explicit: a store
is the arena of all allocated backing arrays, in allocation order, and a
slice is a view `(array id, offset, length)` into one of them.
`node_list[1:]` increments the offset, the base case aliases the input
slice, and `make` allocates a fresh array at the end of the store.  The
functions below mirror `GetCliqueCandidates` (cpm.go lines 210-247)
step by step on this representation. -/

/-- A Go slice: a view into backing array `arr` starting at `off` with
length `len`. -/
structure Slice where
  arr : Nat
  off : Nat
  len : Nat
deriving DecidableEq, Repr

/-- The arena of allocated backing arrays; the id of an array is its
allocation index. -/
abbrev Store := List (List Nat)

/-- The node sequence a slice denotes in a store. -/
def sliceData (st : Store) (s : Slice) : List Nat :=
  ((st.getD s.arr []).drop s.off).take s.len

/-- `IsDuplicate` on slices: reads the candidate and every accumulated
candidate through the store (cpm.go lines 378-397). -/
def IsDuplicateS (st : Store) (cc : Slice) (clist : List Slice) : Bool :=
  IsDuplicate (sliceData st cc) (clist.map (sliceData st))

/-- One inner-loop iteration of `GetCliqueCandidates` with explicit
memory (cpm.go lines 230-244): `make` allocates a fresh backing array
holding the copy of `item` with position `i` overwritten by `node`
(allocation happens unconditionally, before the duplicate check, exactly
as in the source). -/
def addCandS (node : Nat) (item : Slice) (p : List Slice × Store) (i : Nat) :
    List Slice × Store :=
  let content := (sliceData p.2 item).set i node
  let nc : Slice := ⟨p.2.length, 0, content.length⟩
  let st2 := p.2 ++ [content]
  if IsDuplicateS st2 nc p.1 then (p.1, st2) else (nc :: p.1, st2)

/-- The inner loop over the positions of one `item` (cpm.go lines
230-244), with explicit memory. -/
def substOneS (node : Nat) (item : Slice) (p : List Slice × Store) :
    List Slice × Store :=
  (List.range (sliceData p.2 item).length).foldl (addCandS node item) p

/-- The outer loop over the recursively obtained candidate list (cpm.go
lines 229-245), with explicit memory. -/
def substAllS (node : Nat) (cl : List Slice) (st : Store) : List Slice × Store :=
  cl.foldl (fun p item => substOneS node item p) (cl, st)

/-- `GetCliqueCandidates` (cpm.go lines 210-247) with explicit memory;
the input slice is `⟨arr, off, n⟩`.  The base case returns the input
slice itself (the Go code aliases `node_list` without copying); the
recursive call advances the offset.  As for the pure version, the Go
guards return `nil` for an empty slice, for any `k`. -/
def GetCliqueCandidatesS (k : Nat) (arr off : Nat) : Nat → Store → List Slice × Store
  | 0, st => ([], st)
  | n + 1, st =>
    if k < 2 then ([], st)
    else if n + 1 < k - 1 then ([], st)
    else if n + 1 = k - 1 then ([⟨arr, off, n + 1⟩], st)
    else
      let node := (st.getD arr []).getD off 0
      let r := GetCliqueCandidatesS k arr (off + 1) n st
      substAllS node r.1 r.2

/-! ### Generic lemmas about the accumulation folds -/

theorem foldl_mem_mono {α β : Type} {f : List α → β → List α}
    (hf : ∀ a x c, c ∈ a → c ∈ f a x) (l : List β) (acc : List α) {c : α}
    (hc : c ∈ acc) : c ∈ l.foldl f acc := by
  induction l generalizing acc with
  | nil => exact hc
  | cons x xs ih => exact ih (f acc x) (hf acc x c hc)

theorem foldl_inv {α β : Type} (P : α → Prop) (f : α → β → α) (l : List β)
    (hf : ∀ a x, x ∈ l → P a → P (f a x)) (acc : α) (h : P acc) :
    P (l.foldl f acc) := by
  induction l generalizing acc with
  | nil => exact h
  | cons x xs ih =>
    exact ih (fun a y hy => hf a y (List.mem_cons_of_mem _ hy)) _
      (hf acc x (List.mem_cons_self _ _) h)

theorem mem_addCand {node : Nat} {item : List Nat} {acc : List (List Nat)}
    {i : Nat} {c : List Nat} (hc : c ∈ acc) : c ∈ addCand node item acc i := by
  simp only [addCand]
  split
  · exact hc
  · exact List.mem_cons_of_mem _ hc

theorem addCand_cases {node : Nat} {item : List Nat} {acc : List (List Nat)}
    {i : Nat} {c : List Nat} (hc : c ∈ addCand node item acc i) :
    c ∈ acc ∨ c = item.set i node := by
  simp only [addCand] at hc
  split at hc
  · exact Or.inl hc
  · rcases List.mem_cons.mp hc with h | h
    · exact Or.inr h
    · exact Or.inl h

theorem mem_substOne {node : Nat} {item : List Nat} {acc : List (List Nat)}
    {c : List Nat} (hc : c ∈ acc) : c ∈ substOne node item acc :=
  foldl_mem_mono (fun _ _ _ h => mem_addCand h) _ acc hc

theorem mem_substAll_fold {node : Nat} (items : List (List Nat))
    (acc : List (List Nat)) {c : List Nat} (hc : c ∈ acc) :
    c ∈ items.foldl (fun a it => substOne node it a) acc :=
  foldl_mem_mono (fun _ _ _ h => mem_substOne h) items acc hc

theorem mem_substAll {node : Nat} {cl : List (List Nat)} {c : List Nat}
    (hc : c ∈ cl) : c ∈ substAll node cl :=
  mem_substAll_fold cl cl hc

/-! ### Invariants of the candidate generator -/

theorem isDuplicate_of_subset {c b : List Nat} {acc : List (List Nat)}
    (hb : b ∈ acc) (hne : c ≠ []) (hsub : ∀ x ∈ c, x ∈ b) :
    IsDuplicate c acc = true := by
  unfold IsDuplicate
  rw [List.any_eq_true]
  exact ⟨b, hb, by simpa using ⟨hne, hsub⟩⟩

theorem substOne_len_elems {m : Nat} {nl : List Nat} {node : Nat}
    {item : List Nat} (hnode : node ∈ nl) (hitem_len : item.length = m)
    (hitem_elems : ∀ x ∈ item, x ∈ nl) (acc : List (List Nat))
    (hacc : ∀ c ∈ acc, c.length = m ∧ ∀ x ∈ c, x ∈ nl) :
    ∀ c ∈ substOne node item acc, c.length = m ∧ ∀ x ∈ c, x ∈ nl := by
  unfold substOne
  refine foldl_inv (fun a : List (List Nat) => ∀ c ∈ a, c.length = m ∧ ∀ x ∈ c, x ∈ nl) _ _
    ?_ _ hacc
  intro a i _ ha c hc
  rcases addCand_cases hc with h | rfl
  · exact ha c h
  · refine ⟨by rw [List.length_set]; exact hitem_len, ?_⟩
    intro x hx
    rcases List.mem_or_eq_of_mem_set hx with hx2 | rfl
    · exact hitem_elems x hx2
    · exact hnode

theorem substAll_len_elems {m : Nat} {nl : List Nat} {node : Nat}
    (hnode : node ∈ nl) (cl : List (List Nat))
    (hcl : ∀ c ∈ cl, c.length = m ∧ ∀ x ∈ c, x ∈ nl) :
    ∀ c ∈ substAll node cl, c.length = m ∧ ∀ x ∈ c, x ∈ nl := by
  unfold substAll
  refine foldl_inv (fun a : List (List Nat) => ∀ c ∈ a, c.length = m ∧ ∀ x ∈ c, x ∈ nl) _ _
    ?_ _ hcl
  intro a item hitem ha
  exact substOne_len_elems hnode (hcl item hitem).1 (hcl item hitem).2 a ha

/-- Every candidate returned by `GetCliqueCandidates` has length `k - 1`
and draws all its nodes from the input list. -/
theorem gcc_len_elems (k : Nat) (nl : List Nat) :
    ∀ c ∈ GetCliqueCandidates k nl, c.length = k - 1 ∧ ∀ x ∈ c, x ∈ nl := by
  induction nl with
  | nil => simp [GetCliqueCandidates]
  | cons node rest ih =>
    rw [GetCliqueCandidates]
    split
    · simp
    · split
      · simp
      · split
        · next hlen =>
          intro c hc
          rw [List.mem_singleton] at hc
          subst hc
          exact ⟨hlen, fun x hx => hx⟩
        · refine substAll_len_elems (List.mem_cons_self _ _) _ ?_
          intro c hc
          exact ⟨(ih c hc).1, fun x hx => List.mem_cons_of_mem _ ((ih c hc).2 x hx)⟩


theorem substOne_DS {m : Nat} (hm : 0 < m) {node : Nat} {item : List Nat}
    (hitem_len : item.length = m) (acc : List (List Nat))
    (hacc : (∀ c ∈ acc, c.length = m) ∧
      acc.Pairwise (fun a b => a.toFinset ≠ b.toFinset)) :
    (∀ c ∈ substOne node item acc, c.length = m) ∧
      (substOne node item acc).Pairwise (fun a b => a.toFinset ≠ b.toFinset) := by
  unfold substOne
  refine foldl_inv (fun a : List (List Nat) =>
    (∀ c ∈ a, c.length = m) ∧ a.Pairwise (fun a b => a.toFinset ≠ b.toFinset))
    _ _ ?_ _ hacc
  intro a i _ h
  obtain ⟨halen, haDS⟩ := h
  simp only [addCand]
  split
  · exact ⟨halen, haDS⟩
  · next hdup =>
    have hnclen : (item.set i node).length = m := by
      rw [List.length_set]; exact hitem_len
    constructor
    · intro c hc
      rcases List.mem_cons.mp hc with rfl | h2
      · exact hnclen
      · exact halen c h2
    · refine List.Pairwise.cons ?_ haDS
      intro b hb heq
      apply hdup
      refine isDuplicate_of_subset hb ?_ ?_
      · exact List.length_pos.mp (hnclen ▸ hm)
      · intro x hx
        have hx2 : x ∈ (item.set i node).toFinset := List.mem_toFinset.mpr hx
        rw [heq] at hx2
        exact List.mem_toFinset.mp hx2

theorem substAll_DS {m : Nat} (hm : 0 < m) {node : Nat} (cl : List (List Nat))
    (hclLen : ∀ c ∈ cl, c.length = m)
    (hclDS : cl.Pairwise (fun a b => a.toFinset ≠ b.toFinset)) :
    (∀ c ∈ substAll node cl, c.length = m) ∧
      (substAll node cl).Pairwise (fun a b => a.toFinset ≠ b.toFinset) := by
  unfold substAll
  refine foldl_inv (fun a : List (List Nat) =>
    (∀ c ∈ a, c.length = m) ∧ a.Pairwise (fun a b => a.toFinset ≠ b.toFinset))
    _ _ ?_ _ ⟨hclLen, hclDS⟩
  intro a item hitem ha
  exact substOne_DS hm (hclLen item hitem) a ha

/-- No two candidates returned by `GetCliqueCandidates` have the same
node set: the `IsDuplicate` guard rejects any new candidate all of whose
nodes occur in an already accumulated candidate, which in particular
covers set equality. -/
theorem gcc_DS (k : Nat) (nl : List Nat) :
    (GetCliqueCandidates k nl).Pairwise (fun a b => a.toFinset ≠ b.toFinset) := by
  induction nl with
  | nil => simp [GetCliqueCandidates]
  | cons node rest ih =>
    by_cases hk : k < 2
    · simp [GetCliqueCandidates, hk]
    · rw [GetCliqueCandidates, if_neg hk]
      split
      · simp
      · split
        · simp
        · have hm : 0 < k - 1 := by omega
          exact (substAll_DS hm _ (fun c hc => (gcc_len_elems k rest c hc).1) ih).2

theorem nodup_set {l : List Nat} {node : Nat} (hnd : l.Nodup) (hnode : node ∉ l) :
    ∀ i : Nat, (l.set i node).Nodup := by
  induction l with
  | nil => intro i; simp
  | cons a as ih =>
    intro i
    rw [List.nodup_cons] at hnd
    cases i with
    | zero =>
      rw [List.set_cons_zero, List.nodup_cons]
      exact ⟨fun h => hnode (List.mem_cons_of_mem _ h), hnd.2⟩
    | succ j =>
      rw [List.set_cons_succ, List.nodup_cons]
      refine ⟨?_, ih hnd.2 (fun h => hnode (List.mem_cons_of_mem _ h)) j⟩
      intro h
      rcases List.mem_or_eq_of_mem_set h with h2 | rfl
      · exact hnd.1 h2
      · exact hnode (List.mem_cons_self _ _)

/-- On a duplicate-free input list every candidate is duplicate-free. -/
theorem gcc_nodup (k : Nat) {nl : List Nat} (hnd : nl.Nodup) :
    ∀ c ∈ GetCliqueCandidates k nl, c.Nodup := by
  induction nl with
  | nil => simp [GetCliqueCandidates]
  | cons node rest ih =>
    rw [GetCliqueCandidates]
    split
    · simp
    · split
      · simp
      · split
        · intro c hc
          rw [List.mem_singleton] at hc
          subst hc
          exact hnd
        · rw [List.nodup_cons] at hnd
          have hrest := ih hnd.2
          unfold substAll
          refine foldl_inv (fun a : List (List Nat) => ∀ c ∈ a, c.Nodup) _ _
            ?_ _ hrest
          intro a item hitem ha
          unfold substOne
          refine foldl_inv (fun a : List (List Nat) => ∀ c ∈ a, c.Nodup) _ _
            ?_ _ ha
          intro a2 i _ ha2 c hc
          rcases addCand_cases hc with h | rfl
          · exact ha2 c h
          · refine nodup_set (hrest item hitem) ?_ i
            intro h
            exact hnd.1 ((gcc_len_elems k rest item hitem).2 node h)


/-! ### Coverage: every (k-1)-subset occurs among the candidates -/

/-- Candidate lists accumulated during generation consist of
duplicate-free lists of a fixed length. -/
def WFcand (m : Nat) (L : List (List Nat)) : Prop :=
  ∀ c ∈ L, c.length = m ∧ c.Nodup

theorem WF_substOne {m : Nat} {node : Nat} {item : List Nat}
    (hlen : item.length = m) (hnd : item.Nodup) (hnode : node ∉ item)
    (acc : List (List Nat)) (hacc : WFcand m acc) :
    WFcand m (substOne node item acc) := by
  unfold substOne
  refine foldl_inv (WFcand m) _ _ ?_ _ hacc
  intro a i _ ha c hc
  rcases addCand_cases hc with h | rfl
  · exact ha c h
  · exact ⟨by rw [List.length_set]; exact hlen, nodup_set hnd hnode i⟩

theorem toFinset_set (node y : Nat) :
    ∀ (c : List Nat), c.Nodup → node ∉ c → ∀ i : Nat, i < c.length →
      c.getD i 0 = y →
      (c.set i node).toFinset = insert node (c.toFinset.erase y) := by
  intro c
  induction c with
  | nil => intro _ _ i hi; exact absurd hi (by simp)
  | cons a as ih =>
    intro hnd hnode i hi hy
    rw [List.nodup_cons] at hnd
    cases i with
    | zero =>
      have ha : a = y := by simpa using hy
      subst ha
      rw [List.set_cons_zero, List.toFinset_cons, List.toFinset_cons,
        Finset.erase_insert_eq_erase,
        Finset.erase_eq_of_not_mem (fun h => hnd.1 (List.mem_toFinset.mp h))]
    | succ j =>
      have hj : j < as.length := by simpa using hi
      have hyj : as.getD j 0 = y := by simpa using hy
      have hyas : y ∈ as := by
        rw [← hyj, List.getD_eq_getElem as 0 hj]
        exact List.getElem_mem hj
      have hay : a ≠ y := fun h => hnd.1 (h ▸ hyas)
      rw [List.set_cons_succ, List.toFinset_cons, List.toFinset_cons,
        ih hnd.2 (fun h => hnode (List.mem_cons_of_mem _ h)) j hj hyj,
        Finset.erase_insert_of_ne hay, Finset.Insert.comm]

theorem cover_addCand_fold {m : Nat} {node : Nat}
    {item : List Nat} (hlen : item.length = m) (hnd : item.Nodup)
    (hnode : node ∉ item) {S : Finset Nat} :
    ∀ (is : List Nat) (acc : List (List Nat)), WFcand m acc →
      ∀ i ∈ is, (item.set i node).toFinset = S →
      ∃ c ∈ is.foldl (addCand node item) acc, c.toFinset = S := by
  intro is
  induction is with
  | nil => intro acc _ i hi _; exact absurd hi (List.not_mem_nil i)
  | cons j js ih =>
    intro acc hWF i hi hS
    rw [List.foldl_cons]
    rcases List.mem_cons.mp hi with rfl | hi2
    · by_cases hdup : IsDuplicate (item.set i node) acc = true
      · unfold IsDuplicate at hdup
        rw [List.any_eq_true] at hdup
        obtain ⟨it, hit, hcond⟩ := hdup
        rw [decide_eq_true_eq] at hcond
        obtain ⟨_, hsub⟩ := hcond
        have h1 : (item.set i node).toFinset ⊆ it.toFinset := by
          intro x hx
          exact List.mem_toFinset.mpr (hsub x (List.mem_toFinset.mp hx))
        have hcard1 : (item.set i node).toFinset.card = m := by
          rw [List.toFinset_card_of_nodup (nodup_set hnd hnode i),
            List.length_set]
          exact hlen
        have hcard2 : it.toFinset.card = m := by
          rw [List.toFinset_card_of_nodup (hWF it hit).2]
          exact (hWF it hit).1
        have heq : (item.set i node).toFinset = it.toFinset :=
          Finset.eq_of_subset_of_card_le h1 (le_of_eq (hcard2.trans hcard1.symm))
        refine ⟨it, ?_, by rw [← heq, hS]⟩
        exact foldl_mem_mono (fun _ _ _ h => mem_addCand h) js _ (mem_addCand hit)
      · refine ⟨item.set i node, ?_, hS⟩
        have hmem : item.set i node ∈ addCand node item acc i := by
          simp only [addCand]
          rw [if_neg hdup]
          exact List.mem_cons_self _ _
        exact foldl_mem_mono (fun _ _ _ h => mem_addCand h) js _ hmem
    · refine ih (addCand node item acc j) ?_ i hi2 hS
      intro c hc
      rcases addCand_cases hc with h | rfl
      · exact hWF c h
      · exact ⟨by rw [List.length_set]; exact hlen, nodup_set hnd hnode j⟩

theorem cover_substAll_fold {m : Nat} {node : Nat}
    {S : Finset Nat} :
    ∀ (items : List (List Nat)) (acc : List (List Nat)),
      (∀ it ∈ items, it.length = m ∧ it.Nodup ∧ node ∉ it) → WFcand m acc →
      ∀ c ∈ items, ∀ i : Nat, i < c.length → (c.set i node).toFinset = S →
      ∃ e ∈ items.foldl (fun a it => substOne node it a) acc, e.toFinset = S := by
  intro items
  induction items with
  | nil => intro acc _ _ c hc; exact absurd hc (List.not_mem_nil c)
  | cons d ds ih =>
    intro acc hitems hWF c hc i hilt hS
    rw [List.foldl_cons]
    rcases List.mem_cons.mp hc with rfl | hc2
    · obtain ⟨hdlen, hdnd, hdnode⟩ := hitems c (List.mem_cons_self _ _)
      obtain ⟨e, he, heS⟩ := cover_addCand_fold hdlen hdnd hdnode
        (List.range c.length) acc hWF i (List.mem_range.mpr hilt) hS
      exact ⟨e, mem_substAll_fold ds _ he, heS⟩
    · refine ih (substOne node d acc)
        (fun it hit => hitems it (List.mem_cons_of_mem _ hit)) ?_ c hc2 i hilt hS
      obtain ⟨hdlen, hdnd, hdnode⟩ := hitems d (List.mem_cons_self _ _)
      exact WF_substOne hdlen hdnd hdnode acc hWF

/-- Every (k-1)-element subset of a duplicate-free input list of length
at least k-1 occurs as the node set of some returned candidate. -/
theorem gcc_cover {k : Nat} (hk : 2 ≤ k) :
    ∀ nl : List Nat, nl.Nodup → k - 1 ≤ nl.length →
      ∀ S : Finset Nat, S ⊆ nl.toFinset → S.card = k - 1 →
      ∃ c ∈ GetCliqueCandidates k nl, c.toFinset = S := by
  intro nl
  induction nl with
  | nil =>
    intro _ hlen S _ _
    exfalso
    simp only [List.length_nil] at hlen
    omega
  | cons node rest ih =>
    intro hnd hlen S hsub hcard
    rw [GetCliqueCandidates, if_neg (by omega : ¬ k < 2),
      if_neg (Nat.not_lt.mpr hlen)]
    by_cases hbase : (node :: rest).length = k - 1
    · rw [if_pos hbase]
      have hc1 : (node :: rest).toFinset.card = k - 1 := by
        rw [List.toFinset_card_of_nodup hnd, hbase]
      have hSeq : S = (node :: rest).toFinset :=
        Finset.eq_of_subset_of_card_le hsub (le_of_eq (hc1.trans hcard.symm))
      exact ⟨node :: rest, List.mem_singleton_self _, hSeq.symm⟩
    · rw [if_neg hbase]
      have hndc := hnd
      rw [List.nodup_cons] at hndc
      have hrestlen : k - 1 ≤ rest.length := by
        simp only [List.length_cons] at hlen hbase
        omega
      by_cases hnodeS : node ∈ S
      · have hS2card : (S.erase node).card = k - 1 - 1 := by
          rw [Finset.card_erase_of_mem hnodeS, hcard]
        have hS2sub : S.erase node ⊆ rest.toFinset := by
          intro x hx
          have hxS : x ∈ S := Finset.mem_of_mem_erase hx
          have hxne : x ≠ node := Finset.ne_of_mem_erase hx
          have hx2 := hsub hxS
          rw [List.toFinset_cons, Finset.mem_insert] at hx2
          rcases hx2 with h | h
          · exact absurd h hxne
          · exact h
        have hy : ∃ y ∈ rest.toFinset, y ∉ S.erase node := by
          by_contra hcon
          push_neg at hcon
          have hsubc : rest.toFinset ⊆ S.erase node := fun y hy => hcon y hy
          have hle := Finset.card_le_card hsubc
          rw [List.toFinset_card_of_nodup hndc.2, hS2card] at hle
          omega
        obtain ⟨y, hyrest, hyS2⟩ := hy
        have hTcard : (insert y (S.erase node)).card = k - 1 := by
          rw [Finset.card_insert_of_not_mem hyS2, hS2card]
          omega
        have hTsub : insert y (S.erase node) ⊆ rest.toFinset := by
          intro x hx
          rw [Finset.mem_insert] at hx
          rcases hx with rfl | hx
          · exact hyrest
          · exact hS2sub hx
        obtain ⟨c, hc, hcT⟩ := ih hndc.2 hrestlen _ hTsub hTcard
        have hyc : y ∈ c := by
          rw [← List.mem_toFinset, hcT]
          exact Finset.mem_insert_self _ _
        obtain ⟨i, hilt, hgi⟩ := List.mem_iff_getElem.mp hyc
        have hnodec : node ∉ c :=
          fun h => hndc.1 ((gcc_len_elems k rest c hc).2 node h)
        have hset : (c.set i node).toFinset = S := by
          rw [toFinset_set node y c (gcc_nodup k hndc.2 c hc) hnodec i hilt
            (by rw [List.getD_eq_getElem c 0 hilt]; exact hgi),
            hcT, Finset.erase_insert hyS2]
          exact Finset.insert_erase hnodeS
        refine cover_substAll_fold (m := k - 1) _ _ ?_ ?_ c hc i hilt hset
        · intro it hit
          exact ⟨(gcc_len_elems k rest it hit).1, gcc_nodup k hndc.2 it hit,
            fun h => hndc.1 ((gcc_len_elems k rest it hit).2 node h)⟩
        · intro it hit
          exact ⟨(gcc_len_elems k rest it hit).1, gcc_nodup k hndc.2 it hit⟩
      · have hsub2 : S ⊆ rest.toFinset := by
          intro x hx
          have hx2 := hsub hx
          rw [List.toFinset_cons, Finset.mem_insert] at hx2
          rcases hx2 with rfl | h
          · exact absurd hx hnodeS
          · exact h
        obtain ⟨c, hc, hcS⟩ := ih hndc.2 hrestlen S hsub2 hcard
        exact ⟨c, mem_substAll hc, hcS⟩


/-! ### The candidate sets are exactly the (k-1)-subsets -/

theorem gcc_sets_eq {k : Nat} (hk : 2 ≤ k) {nl : List Nat} (hnd : nl.Nodup)
    (hlen : k - 1 ≤ nl.length) :
    ((GetCliqueCandidates k nl).map List.toFinset).toFinset =
      nl.toFinset.powersetCard (k - 1) := by
  ext S
  rw [List.mem_toFinset, List.mem_map, Finset.mem_powersetCard]
  constructor
  · rintro ⟨c, hc, rfl⟩
    refine ⟨?_, ?_⟩
    · intro x hx
      exact List.mem_toFinset.mpr
        ((gcc_len_elems k nl c hc).2 x (List.mem_toFinset.mp hx))
    · rw [List.toFinset_card_of_nodup (gcc_nodup k hnd c hc),
        (gcc_len_elems k nl c hc).1]
  · rintro ⟨hsub, hcard⟩
    obtain ⟨c, hc, hcS⟩ := gcc_cover hk nl hnd hlen S hsub hcard
    exact ⟨c, hc, hcS⟩

/-- C1: for every list of n pairwise-distinct nodes and every k ≥ 2 with
n ≥ k-1, `GetCliqueCandidates` returns exactly C(n, k-1) candidates,
each of length k-1, pairwise distinct as unordered node sets, and
together covering every (k-1)-subset of the input list. -/
theorem C1_candidate_generator (k : Nat) (nl : List Nat) (hk : 2 ≤ k)
    (hnd : nl.Nodup) (hlen : k - 1 ≤ nl.length) :
    (GetCliqueCandidates k nl).length = nl.length.choose (k - 1) ∧
    (∀ c ∈ GetCliqueCandidates k nl, c.length = k - 1) ∧
    ((GetCliqueCandidates k nl).map List.toFinset).Nodup ∧
    (∀ S : Finset Nat, S ⊆ nl.toFinset → S.card = k - 1 →
      ∃ c ∈ GetCliqueCandidates k nl, c.toFinset = S) := by
  have hmapnd : ((GetCliqueCandidates k nl).map List.toFinset).Nodup :=
    List.Pairwise.map List.toFinset (fun _ _ h => h) (gcc_DS k nl)
  refine ⟨?_, fun c hc => (gcc_len_elems k nl c hc).1, hmapnd,
    gcc_cover hk nl hnd hlen⟩
  have h2 : ((GetCliqueCandidates k nl).map List.toFinset).toFinset.card
      = (nl.toFinset.powersetCard (k - 1)).card := by
    rw [gcc_sets_eq hk hnd hlen]
  rw [List.toFinset_card_of_nodup hmapnd, List.length_map,
    Finset.card_powersetCard, List.toFinset_card_of_nodup hnd] at h2
  exact h2

/-- Witness for C1 at k = 3 and the node list [1, 2, 3, 4]. -/
theorem C1_candidate_generator_witness :
    (2 ≤ 3 ∧ ([1, 2, 3, 4] : List Nat).Nodup ∧
      3 - 1 ≤ ([1, 2, 3, 4] : List Nat).length) ∧
    ((GetCliqueCandidates 3 [1, 2, 3, 4]).length
        = ([1, 2, 3, 4] : List Nat).length.choose (3 - 1) ∧
      (∀ c ∈ GetCliqueCandidates 3 [1, 2, 3, 4], c.length = 3 - 1) ∧
      ((GetCliqueCandidates 3 [1, 2, 3, 4]).map List.toFinset).Nodup ∧
      (∀ S : Finset Nat, S ⊆ ([1, 2, 3, 4] : List Nat).toFinset →
        S.card = 3 - 1 →
        ∃ c ∈ GetCliqueCandidates 3 [1, 2, 3, 4], c.toFinset = S)) :=
  ⟨⟨by decide, by decide, by decide⟩,
    C1_candidate_generator 3 [1, 2, 3, 4] (by decide) (by decide) (by decide)⟩

/-! ### The clique verifier -/

theorem foldl_guard_rev {α β : Type} (p : α → Bool) (f : α → β) :
    ∀ (l : List α) (acc : List β),
      l.foldl (fun a x => if p x then f x :: a else a) acc
        = ((l.filter p).map f).reverse ++ acc := by
  intro l
  induction l with
  | nil => intro acc; simp
  | cons x xs ih =>
    intro acc
    rw [List.foldl_cons, List.filter_cons]
    by_cases hx : p x = true
    · rw [if_pos hx, if_pos hx, ih, List.map_cons, List.reverse_cons,
        List.append_assoc, List.singleton_append]
    · rw [if_neg hx, if_neg hx, ih]

theorem makeCliqueList_eq (adj : Nat → List Nat) (cands : List (List Nat))
    (exam : Nat) :
    MakeCliqueList adj cands exam
      = ((cands.filter (allPairsConnected adj)).map
          (fun item => item ++ [exam])).reverse := by
  unfold MakeCliqueList
  rw [foldl_guard_rev (allPairsConnected adj) (fun item => item ++ [exam]) cands []]
  rw [List.append_nil]

theorem mem_makeCliqueList {adj : Nat → List Nat} {cands : List (List Nat)}
    {exam : Nat} {cl : List Nat} :
    cl ∈ MakeCliqueList adj cands exam ↔
      ∃ item ∈ cands, allPairsConnected adj item = true ∧ cl = item ++ [exam] := by
  rw [makeCliqueList_eq, List.mem_reverse, List.mem_map]
  constructor
  · rintro ⟨item, hitem, rfl⟩
    rw [List.mem_filter] at hitem
    exact ⟨item, hitem.1, hitem.2, rfl⟩
  · rintro ⟨item, hitem, hconn, rfl⟩
    exact ⟨item, List.mem_filter.mpr ⟨hitem, hconn⟩, rfl⟩

/-- C3: provided the neighbor relation is symmetric and every candidate
node occurs in the examination node's neighbor list, every clique
emitted by `MakeCliqueList` is pairwise mutually connected (in both
directions, including every pair involving the examination node). -/
theorem C3_clique_validity (adj : Nat → List Nat)
    (candidate_list : List (List Nat)) (examination_node : Nat)
    (hsym : ∀ a b : Nat, a ∈ adj b ↔ b ∈ adj a)
    (hanchor : ∀ item ∈ candidate_list, ∀ x ∈ item, x ∈ adj examination_node) :
    ∀ cl ∈ MakeCliqueList adj candidate_list examination_node,
      cl.Pairwise (fun a b =>
        IsConnected adj a b = true ∧ IsConnected adj b a = true) := by
  intro cl hcl
  rw [mem_makeCliqueList] at hcl
  obtain ⟨item, hitem, hconn, rfl⟩ := hcl
  rw [List.pairwise_append]
  refine ⟨?_, List.pairwise_singleton _ _, ?_⟩
  · unfold allPairsConnected at hconn
    rw [decide_eq_true_eq] at hconn
    refine hconn.imp ?_
    intro a b hab
    refine ⟨hab, ?_⟩
    unfold IsConnected at hab ⊢
    rw [decide_eq_true_eq] at hab ⊢
    exact (hsym a b).mp hab
  · intro a ha b hb
    rw [List.mem_singleton] at hb
    rw [hb]
    have hx : a ∈ adj examination_node := hanchor item hitem a ha
    constructor
    · unfold IsConnected
      rw [decide_eq_true_eq]
      exact hx
    · unfold IsConnected
      rw [decide_eq_true_eq]
      exact (hsym a examination_node).mp hx

set_option maxHeartbeats 2000000 in
theorem modelAdj_subset (b : Nat) : ∀ a ∈ modelAdj b, a ≤ 10 := by
  unfold modelAdj
  split_ifs <;> decide

set_option maxHeartbeats 2000000 in
theorem modelAdj_far (b : Nat) (hb : ¬ b ≤ 10) : modelAdj b = [] := by
  unfold modelAdj
  split_ifs <;> first | omega | rfl

theorem modelAdj_bound {a b : Nat} (h : a ∈ modelAdj b) : a ≤ 10 ∧ b ≤ 10 := by
  refine ⟨modelAdj_subset b a h, ?_⟩
  by_contra hb
  rw [modelAdj_far b hb] at h
  exact List.not_mem_nil a h

/-- The model graph is symmetric: every `append` in `main` (cpm.go lines
1199-1248) has a matching `append` in the opposite direction. -/
theorem modelAdj_symm_all : ∀ x ≤ 10, ∀ y ≤ 10,
    x ∈ modelAdj y → y ∈ modelAdj x := by decide

theorem modelAdj_symm (a b : Nat) : a ∈ modelAdj b ↔ b ∈ modelAdj a := by
  constructor <;> intro h
  · obtain ⟨h1, h2⟩ := modelAdj_bound h
    exact modelAdj_symm_all a h1 b h2 h
  · obtain ⟨h1, h2⟩ := modelAdj_bound h
    exact modelAdj_symm_all b h1 a h2 h

/-- Witness for C3: the model graph, the candidate list generated for
node v5, and examination node 5. -/
theorem C3_clique_validity_witness :
    ((∀ a b : Nat, a ∈ modelAdj b ↔ b ∈ modelAdj a) ∧
      (∀ item ∈ GetCliqueCandidates 3 (modelAdj 5), ∀ x ∈ item,
        x ∈ modelAdj 5)) ∧
    (∀ cl ∈ MakeCliqueList modelAdj (GetCliqueCandidates 3 (modelAdj 5)) 5,
      cl.Pairwise (fun a b =>
        IsConnected modelAdj a b = true ∧ IsConnected modelAdj b a = true)) :=
  ⟨⟨modelAdj_symm, by decide⟩,
    C3_clique_validity modelAdj (GetCliqueCandidates 3 (modelAdj 5)) 5
      modelAdj_symm (by decide)⟩


/-! ### The merge/deduplication layer -/

theorem notRecorded_iff {c : List Nat} {L : List (List Nat)} :
    NotRecorded c L = true ↔ ∀ it ∈ L, cliqueMatchB it c = false := by
  unfold NotRecorded
  rw [Bool.not_eq_true', List.any_eq_false]
  simp only [Bool.not_eq_true]

theorem notRecorded_false_iff {c : List Nat} {L : List (List Nat)} :
    NotRecorded c L = false ↔ ∃ it ∈ L, cliqueMatchB it c = true := by
  unfold NotRecorded
  rw [Bool.not_eq_false', List.any_eq_true]

theorem length_le_sum {l : List Nat} (h : ∀ x ∈ l, 1 ≤ x) : l.length ≤ l.sum := by
  induction l with
  | nil => simp
  | cons x xs ih =>
    rw [List.length_cons, List.sum_cons]
    have h1 := h x (List.mem_cons_self _ _)
    have h2 := ih (fun y hy => h y (List.mem_cons_of_mem _ hy))
    omega

/-- Two cliques of equal length with equal node sets always satisfy the
matching test of `NotRecorded`: every node of `item` occurs in `clique`,
so the pair counter reaches at least `len(item)`. -/
theorem cliqueMatch_of_toFinset_eq {it c : List Nat} (hlen : it.length = c.length)
    (hne : it ≠ []) (hset : it.toFinset = c.toFinset) : cliqueMatchB it c = true := by
  unfold cliqueMatchB
  rw [decide_eq_true_eq]
  refine ⟨hlen, hne, ?_⟩
  unfold commonPairCount
  have hall : ∀ x ∈ it.map (fun n => c.count n), 1 ≤ x := by
    intro x hx
    rw [List.mem_map] at hx
    obtain ⟨n, hn, rfl⟩ := hx
    have hnc : n ∈ c := by
      rw [← List.mem_toFinset, ← hset, List.mem_toFinset]
      exact hn
    exact List.count_pos_iff.mpr hnc
  have := length_le_sum hall
  rwa [List.length_map] at this

theorem merge_fold_mem_mono (src : List (List Nat)) (dest : List (List Nat))
    {e : List Nat} (he : e ∈ dest) :
    e ∈ src.foldl
      (fun acc clique => if NotRecorded clique acc then acc ++ [clique] else acc)
      dest := by
  refine foldl_mem_mono ?_ src dest he
  intro a x c hc
  split
  · exact List.mem_append_left _ hc
  · exact hc

theorem merge_fold_append (src : List (List Nat)) :
    ∀ dest : List (List Nat), ∃ t,
      src.foldl
        (fun acc clique => if NotRecorded clique acc then acc ++ [clique] else acc)
        dest = dest ++ t := by
  induction src with
  | nil => intro dest; exact ⟨[], by simp⟩
  | cons c src2 ih =>
    intro dest
    rw [List.foldl_cons]
    by_cases hnr : NotRecorded c dest = true
    · rw [if_pos hnr]
      obtain ⟨t, ht⟩ := ih (dest ++ [c])
      exact ⟨[c] ++ t, by rw [ht, List.append_assoc]⟩
    · rw [if_neg hnr]
      exact ih dest

theorem mem_merge_fold (src : List (List Nat)) :
    ∀ (dest : List (List Nat)) (e : List Nat),
      e ∈ src.foldl
        (fun acc clique => if NotRecorded clique acc then acc ++ [clique] else acc)
        dest →
      e ∈ dest ∨ (e ∈ src ∧ ∀ it ∈ dest, cliqueMatchB it e = false) := by
  induction src with
  | nil => intro dest e he; exact Or.inl he
  | cons c src2 ih =>
    intro dest e he
    rw [List.foldl_cons] at he
    by_cases hnr : NotRecorded c dest = true
    · rw [if_pos hnr] at he
      rcases ih (dest ++ [c]) e he with h | ⟨hes, hnone⟩
      · rcases List.mem_append.mp h with h1 | h1
        · exact Or.inl h1
        · rw [List.mem_singleton] at h1
          subst h1
          exact Or.inr ⟨List.mem_cons_self _ _, notRecorded_iff.mp hnr⟩
      · exact Or.inr ⟨List.mem_cons_of_mem _ hes,
          fun it hit => hnone it (List.mem_append_left _ hit)⟩
    · rw [if_neg hnr] at he
      rcases ih dest e he with h | ⟨hes, hnone⟩
      · exact Or.inl h
      · exact Or.inr ⟨List.mem_cons_of_mem _ hes, hnone⟩

theorem merge_fold_covers (src : List (List Nat)) :
    ∀ (dest : List (List Nat)), ∀ c ∈ src,
      (∃ it ∈ src.foldl
          (fun acc clique => if NotRecorded clique acc then acc ++ [clique] else acc)
          dest, cliqueMatchB it c = true) ∨
        c ∈ src.foldl
          (fun acc clique => if NotRecorded clique acc then acc ++ [clique] else acc)
          dest := by
  induction src with
  | nil => intro dest c hc; exact absurd hc (List.not_mem_nil c)
  | cons d src2 ih =>
    intro dest c hc
    rw [List.foldl_cons]
    rcases List.mem_cons.mp hc with rfl | hc2
    · by_cases hnr : NotRecorded c dest = true
      · rw [if_pos hnr]
        exact Or.inr (merge_fold_mem_mono src2 _
          (List.mem_append_right _ (List.mem_singleton_self c)))
      · rw [if_neg hnr]
        obtain ⟨it, hit, hmat⟩ :=
          notRecorded_false_iff.mp (Bool.not_eq_true _ ▸ hnr : NotRecorded c dest = false)
        exact Or.inl ⟨it, merge_fold_mem_mono src2 dest hit, hmat⟩
    · exact ih _ c hc2

theorem merge_eq_fold {d : List (List Nat)} (hd : d ≠ []) (s : List (List Nat)) :
    MergeCliques d s = s.foldl
      (fun acc clique => if NotRecorded clique acc then acc ++ [clique] else acc) d := by
  unfold MergeCliques
  rw [if_neg (fun h => hd (List.isEmpty_iff.mp h))]

/-- C7: merging the same incoming clique list a second time leaves the
member-set content of the global list unchanged.  (A clique skipped
during the first merge stays matched by the entry that blocked it; a
clique appended during the first merge blocks its own second copy.) -/
theorem C7_merge_idempotent (g s : List (List Nat)) (hg : g ≠ []) :
    ∀ S : Finset Nat,
      (∃ e ∈ MergeCliques (MergeCliques g s) s, e.toFinset = S) ↔
      (∃ e ∈ MergeCliques g s, e.toFinset = S) := by
  have hm1 := merge_eq_fold hg s
  have hm1ne : MergeCliques g s ≠ [] := by
    obtain ⟨t, ht⟩ := merge_fold_append s g
    rw [hm1, ht]
    exact List.append_ne_nil_of_left_ne_nil hg t
  have hm2 := merge_eq_fold hm1ne s
  intro S
  constructor
  · rintro ⟨e, he, rfl⟩
    rw [hm2] at he
    rcases mem_merge_fold s (MergeCliques g s) e he with h | ⟨hes, hnone⟩
    · exact ⟨e, h, rfl⟩
    · rcases merge_fold_covers s g e hes with ⟨it, hit, hmat⟩ | hin
      · rw [← hm1] at hit
        exact absurd hmat (by rw [hnone it hit]; simp)
      · rw [← hm1] at hin
        exact ⟨e, hin, rfl⟩
  · rintro ⟨e, he, rfl⟩
    refine ⟨e, ?_, rfl⟩
    rw [hm2]
    exact merge_fold_mem_mono s (MergeCliques g s) he

/-- Witness for C7 with a nonempty global list and an incoming list
containing both a permuted duplicate and a fresh clique. -/
theorem C7_merge_idempotent_witness :
    ([[1, 2, 3]] : List (List Nat)) ≠ [] ∧
    (∀ S : Finset Nat,
      (∃ e ∈ MergeCliques (MergeCliques [[1, 2, 3]] [[3, 2, 1], [4, 5, 6]])
        [[3, 2, 1], [4, 5, 6]], e.toFinset = S) ↔
      (∃ e ∈ MergeCliques [[1, 2, 3]] [[3, 2, 1], [4, 5, 6]], e.toFinset = S)) :=
  ⟨by decide, C7_merge_idempotent [[1, 2, 3]] [[3, 2, 1], [4, 5, 6]] (by decide)⟩

/-- C6 counterexample: `MergeCliques` applied to a nil global list
returns nil and drops the non-empty incoming list, so the result's
member sets are not those of the incoming list. -/
theorem C6_counterexample :
    MergeCliques ([] : List (List Nat)) [[1, 2, 3]] = [] ∧
    (MergeCliques ([] : List (List Nat)) [[1, 2, 3]]).map List.toFinset ≠
      ([[1, 2, 3]] : List (List Nat)).map List.toFinset := by
  constructor
  · rfl
  · decide

/-- C6 amended: the first-merge-becomes-the-global-list behaviour is
implemented by the caller (`main`'s merge step), not by `MergeCliques`,
which returns nil for a nil destination; merging an empty incoming list
is a no-op for both. -/
theorem C6_first_merge (incoming : List (List Nat)) (hinc : incoming ≠ [])
    (global : List (List Nat)) :
    mergeStep [] incoming = incoming ∧
    MergeCliques [] incoming = [] ∧
    mergeStep global [] = global ∧
    MergeCliques global [] = global := by
  refine ⟨rfl, rfl, ?_, ?_⟩
  · unfold mergeStep MergeCliques
    by_cases h : global.isEmpty = true
    · rw [if_pos h]
      exact (List.isEmpty_iff.mp h).symm
    · rw [if_neg h, if_neg h]
      rfl
  · unfold MergeCliques
    by_cases h : global.isEmpty = true
    · rw [if_pos h]
      exact (List.isEmpty_iff.mp h).symm
    · rw [if_neg h]
      rfl

/-- Witness for C6 (amended form). -/
theorem C6_first_merge_witness :
    ([[1, 2, 3]] : List (List Nat)) ≠ [] ∧
    (mergeStep [] [[1, 2, 3]] = [[1, 2, 3]] ∧
      MergeCliques [] [[1, 2, 3]] = [] ∧
      mergeStep [[4, 5, 6]] [] = [[4, 5, 6]] ∧
      MergeCliques [[4, 5, 6]] [] = [[4, 5, 6]]) :=
  ⟨by decide, C6_first_merge [[1, 2, 3]] (by decide) [[4, 5, 6]]⟩


/-! ### Global deduplication (claim C4) -/

theorem merge_DS {kk : Nat} (hkk : 0 < kk) (dest src : List (List Nat))
    (hdlen : ∀ e ∈ dest, e.length = kk)
    (hdDS : dest.Pairwise (fun a b => a.toFinset ≠ b.toFinset))
    (hslen : ∀ e ∈ src, e.length = kk) :
    (∀ e ∈ MergeCliques dest src, e.length = kk) ∧
      (MergeCliques dest src).Pairwise (fun a b => a.toFinset ≠ b.toFinset) := by
  unfold MergeCliques
  by_cases h : dest.isEmpty = true
  · rw [if_pos h]
    exact ⟨by simp, List.Pairwise.nil⟩
  · rw [if_neg h]
    refine foldl_inv (fun a : List (List Nat) =>
      (∀ e ∈ a, e.length = kk) ∧
        a.Pairwise (fun a b => a.toFinset ≠ b.toFinset)) _ _ ?_ _ ⟨hdlen, hdDS⟩
    intro a c hcsrc ha
    obtain ⟨halen, haDS⟩ := ha
    by_cases hnr : NotRecorded c a = true
    · rw [if_pos hnr]
      constructor
      · intro e he
        rcases List.mem_append.mp he with h1 | h1
        · exact halen e h1
        · rw [List.mem_singleton] at h1
          rw [h1]
          exact hslen c hcsrc
      · rw [List.pairwise_append]
        refine ⟨haDS, List.pairwise_singleton _ _, ?_⟩
        intro e he b hb heq
        rw [List.mem_singleton] at hb
        rw [hb] at heq
        have hmat : cliqueMatchB e c = true := by
          refine cliqueMatch_of_toFinset_eq ?_ ?_ heq
          · rw [halen e he, hslen c hcsrc]
          · have h3 := halen e he
            intro hnil
            rw [hnil] at h3
            simp at h3
            omega
        have hfalse := notRecorded_iff.mp hnr e he
        rw [hmat] at hfalse
        exact absurd hfalse (by simp)
    · rw [if_neg hnr]
      exact ⟨halen, haDS⟩

theorem makeCliqueList_len {adj : Nat → List Nat} {cands : List (List Nat)}
    {exam : Nat} {m : Nat} (hc : ∀ c ∈ cands, c.length = m) :
    ∀ e ∈ MakeCliqueList adj cands exam, e.length = m + 1 := by
  intro e he
  rw [mem_makeCliqueList] at he
  obtain ⟨item, hi, _, rfl⟩ := he
  rw [List.length_append, hc item hi]
  rfl

theorem toFinset_append_singleton (a : List Nat) (exam : Nat) :
    (a ++ [exam]).toFinset = insert exam a.toFinset := by
  ext x
  simp [List.mem_toFinset, List.mem_append, or_comm]

theorem makeCliqueList_DS {adj : Nat → List Nat} {cands : List (List Nat)}
    {exam : Nat}
    (hDS : cands.Pairwise (fun a b => a.toFinset ≠ b.toFinset))
    (hex : ∀ c ∈ cands, exam ∉ c) :
    (MakeCliqueList adj cands exam).Pairwise
      (fun a b => a.toFinset ≠ b.toFinset) := by
  rw [makeCliqueList_eq, List.pairwise_reverse]
  have hsub : (cands.filter (allPairsConnected adj)).Pairwise
      (fun a b => a ∈ cands ∧ b ∈ cands ∧ a.toFinset ≠ b.toFinset) :=
    (List.Pairwise.and_mem.mp hDS).sublist (List.filter_sublist _)
  refine List.Pairwise.map _ ?_ hsub
  intro a b hab heq
  obtain ⟨hac, hbc, hne⟩ := hab
  apply hne
  have ha2 : insert exam b.toFinset = insert exam a.toFinset := by
    rw [← toFinset_append_singleton, ← toFinset_append_singleton, heq]
  have hea : exam ∉ a.toFinset := fun hx => hex a hac (List.mem_toFinset.mp hx)
  have heb : exam ∉ b.toFinset := fun hx => hex b hbc (List.mem_toFinset.mp hx)
  rw [← Finset.erase_insert hea, ← Finset.erase_insert heb, ha2]

/-- C4 counterexample: on a symmetric graph with self-loops and a
duplicated edge entry, the very first per-anchor clique list contains
two cliques with member set \{1, 2\}; it becomes the global list without
passing through `MergeCliques`, so the final global list holds two
entries with the same member set. -/
def pathologicalAdj (v : Nat) : List Nat :=
  if v = 1 then [1, 2, 2] else if v = 2 then [2, 1] else []

theorem C4_counterexample :
    ¬ (runPipeline pathologicalAdj [1, 2] 3).Pairwise
        (fun a b => a.toFinset ≠ b.toFinset) := by decide

/-- C4 (amended): on a graph without self-loops (no node occurs in its
own neighbor list), the global clique list produced by the pipeline has
no two entries with the same member set. -/
theorem C4_global_dedup (adj : Nat → List Nat) (nodes : List Nat) (k : Nat)
    (hk : 2 ≤ k) (hself : ∀ v ∈ nodes, v ∉ adj v) :
    (runPipeline adj nodes k).Pairwise (fun a b => a.toFinset ≠ b.toFinset) := by
  suffices h : (∀ e ∈ runPipeline adj nodes k, e.length = k) ∧
      (runPipeline adj nodes k).Pairwise (fun a b => a.toFinset ≠ b.toFinset) by
    exact h.2
  unfold runPipeline
  refine foldl_inv (fun g : List (List Nat) =>
    (∀ e ∈ g, e.length = k) ∧
      g.Pairwise (fun a b => a.toFinset ≠ b.toFinset)) _ _ ?_ _
    ⟨by simp, List.Pairwise.nil⟩
  intro g v hv hg
  dsimp only
  by_cases hc : (GetCliqueCandidates k (adj v)).isEmpty = true
  · rw [if_pos hc]
    exact hg
  · rw [if_neg hc]
    have hlenIn : ∀ e ∈ MakeCliqueList adj (GetCliqueCandidates k (adj v)) v,
        e.length = k := by
      intro e he
      have h2 := makeCliqueList_len
        (fun c hc2 => (gcc_len_elems k (adj v) c hc2).1) e he
      omega
    have hex : ∀ c ∈ GetCliqueCandidates k (adj v), v ∉ c :=
      fun c hc2 hvc => hself v hv ((gcc_len_elems k (adj v) c hc2).2 v hvc)
    have hDSin : (MakeCliqueList adj (GetCliqueCandidates k (adj v)) v).Pairwise
        (fun a b => a.toFinset ≠ b.toFinset) :=
      makeCliqueList_DS (gcc_DS k (adj v)) hex
    unfold mergeStep
    by_cases hgE : g.isEmpty = true
    · rw [if_pos hgE]
      exact ⟨hlenIn, hDSin⟩
    · rw [if_neg hgE]
      exact merge_DS (by omega) g _ hg.1 hg.2 hlenIn

/-- Witness for C4 (amended): the model graph has no self-loops. -/
theorem C4_global_dedup_witness :
    (2 ≤ 3 ∧ ∀ v ∈ modelNodes, v ∉ modelAdj v) ∧
    (runPipeline modelAdj modelNodes 3).Pairwise
      (fun a b => a.toFinset ≠ b.toFinset) :=
  ⟨⟨by decide, by decide⟩,
    C4_global_dedup modelAdj modelNodes 3 (by decide) (by decide)⟩


/-! ### The community graph -/

theorem sum_map_add {α : Type} (l : List α) (f g : α → Nat) :
    (l.map (fun x => f x + g x)).sum = (l.map f).sum + (l.map g).sum := by
  induction l with
  | nil => rfl
  | cons x xs ih =>
    rw [List.map_cons, List.map_cons, List.map_cons, List.sum_cons,
      List.sum_cons, List.sum_cons, ih]
    omega

theorem count_eq_sum_map (a : Nat) (l : List Nat) :
    l.count a = (l.map (fun m => if m = a then 1 else 0)).sum := by
  induction l with
  | nil => rfl
  | cons x xs ih =>
    rw [List.count_cons, List.map_cons, List.sum_cons, ih]
    by_cases h : x = a
    · simp [h, Nat.add_comm]
    · simp [h, Ne.symm h]

/-- The pair counter is symmetric in its two cliques: both directions
count the number of matching index pairs. -/
theorem commonPairCount_comm (c1 c2 : List Nat) :
    commonPairCount c1 c2 = commonPairCount c2 c1 := by
  induction c1 with
  | nil =>
    unfold commonPairCount
    simp
  | cons a c1 ih =>
    unfold commonPairCount at ih ⊢
    rw [List.map_cons, List.sum_cons, ih]
    have h1 : c2.map (fun m => (a :: c1).count m)
        = c2.map (fun m => c1.count m + if m = a then 1 else 0) := by
      refine List.map_congr_left ?_
      intro m _
      rw [List.count_cons]
      by_cases h : m = a
      · simp [h]
      · simp [h, Ne.symm h]
    rw [h1, sum_map_add, ← count_eq_sum_map a c2]
    omega

theorem count_eq_ite_of_nodup {l : List Nat} (h : l.Nodup) (a : Nat) :
    l.count a = if a ∈ l then 1 else 0 := by
  by_cases ha : a ∈ l
  · rw [if_pos ha]
    exact List.count_eq_one_of_mem h ha
  · rw [if_neg ha]
    exact List.count_eq_zero_of_not_mem ha

theorem sum_indicator_eq_card_inter (c2 : List Nat) :
    ∀ c1 : List Nat, c1.Nodup →
      (c1.map (fun n => if n ∈ c2 then 1 else 0)).sum
        = (c1.toFinset ∩ c2.toFinset).card := by
  intro c1
  induction c1 with
  | nil => intro _; simp
  | cons a c1 ih =>
    intro hnd
    rw [List.nodup_cons] at hnd
    rw [List.map_cons, List.sum_cons, ih hnd.2, List.toFinset_cons]
    by_cases ha : a ∈ c2
    · rw [if_pos ha, Finset.insert_inter_of_mem (List.mem_toFinset.mpr ha),
        Finset.card_insert_of_not_mem]
      · omega
      · intro hmem
        exact hnd.1 (List.mem_toFinset.mp (Finset.mem_of_mem_inter_left hmem))
    · rw [if_neg ha, Finset.insert_inter_of_not_mem
        (fun hmem => ha (List.mem_toFinset.mp hmem))]
      omega

/-- For duplicate-free cliques the pair counter is the number of shared
nodes. -/
theorem commonPairCount_eq_card_inter {c1 c2 : List Nat}
    (h1 : c1.Nodup) (h2 : c2.Nodup) :
    commonPairCount c1 c2 = (c1.toFinset ∩ c2.toFinset).card := by
  unfold commonPairCount
  rw [List.map_congr_left (fun n _ => count_eq_ite_of_nodup h2 n)]
  exact sum_indicator_eq_card_inter c2 c1 h1

theorem createCommunityGraph_getD {cl : List (List Nat)} {k i : Nat}
    (hi : i < cl.length) :
    (CreateCommunityGraph cl k).getD i ([], [])
      = (cl.getD i [], communityNeighbors cl k i) := by
  unfold CreateCommunityGraph
  rw [List.getD_eq_getElem _ _ (by simpa using hi), List.getElem_map,
    List.getElem_range]

theorem mem_communityNeighbors {cl : List (List Nat)} {k i j : Nat} :
    j ∈ communityNeighbors cl k i ↔
      j < cl.length ∧ j ≠ i ∧
        Kminus1CommonNodes (cl.getD i []) (cl.getD j []) k = true := by
  unfold communityNeighbors
  rw [List.mem_filter, List.mem_range]
  constructor
  · rintro ⟨h1, h2⟩
    rw [Bool.and_eq_true] at h2
    exact ⟨h1, by simpa using h2.1, h2.2⟩
  · rintro ⟨h1, h2, h3⟩
    refine ⟨h1, ?_⟩
    rw [Bool.and_eq_true]
    exact ⟨by simpa using h2, h3⟩

/-- C8: the community graph is undirected in effect.  Each ordered pair
of distinct community nodes is evaluated independently, and the pair
counter of `Kminus1CommonNodes` is symmetric, so either both edge
directions are added or neither. -/
theorem C8_community_undirected (cliques : List (List Nat)) (k : Nat)
    (a b : Nat) (ha : a < cliques.length) (hb : b < cliques.length)
    (hab : a ≠ b) :
    (b ∈ ((CreateCommunityGraph cliques k).getD a ([], [])).2 ↔
      a ∈ ((CreateCommunityGraph cliques k).getD b ([], [])).2) := by
  rw [createCommunityGraph_getD ha, createCommunityGraph_getD hb]
  dsimp only
  rw [mem_communityNeighbors, mem_communityNeighbors]
  unfold Kminus1CommonNodes
  constructor
  · rintro ⟨_, _, h3⟩
    rw [decide_eq_true_eq] at h3
    refine ⟨ha, hab, ?_⟩
    rw [decide_eq_true_eq, commonPairCount_comm]
    exact h3
  · rintro ⟨_, _, h3⟩
    rw [decide_eq_true_eq] at h3
    refine ⟨hb, Ne.symm hab, ?_⟩
    rw [decide_eq_true_eq, commonPairCount_comm]
    exact h3

/-- Witness for C8: the nodes of the community graph of two overlapping
triangles. -/
theorem C8_community_undirected_witness :
    (0 < ([[1, 2, 3], [2, 3, 4]] : List (List Nat)).length ∧
      1 < ([[1, 2, 3], [2, 3, 4]] : List (List Nat)).length ∧ (0 : Nat) ≠ 1) ∧
    (1 ∈ ((CreateCommunityGraph [[1, 2, 3], [2, 3, 4]] 3).getD 0 ([], [])).2 ↔
      0 ∈ ((CreateCommunityGraph [[1, 2, 3], [2, 3, 4]] 3).getD 1 ([], [])).2) :=
  ⟨⟨by decide, by decide, by decide⟩,
    C8_community_undirected [[1, 2, 3], [2, 3, 4]] 3 0 1 (by decide) (by decide)
      (by decide)⟩

/-- C5: in the community graph built from a deduplicated list of
k-cliques (k ≥ 2), two distinct community nodes are joined exactly when
their cliques share exactly k-1 nodes.  (The counter tests "at least
k-1", but two distinct duplicate-free k-sets can share at most k-1
nodes, so the bound is attained exactly.) -/
theorem C5_community_edges (cliques : List (List Nat)) (k : Nat) (hk : 2 ≤ k)
    (hlen : ∀ c ∈ cliques, c.length = k) (hnd : ∀ c ∈ cliques, c.Nodup)
    (hdedup : cliques.Pairwise (fun a b => a.toFinset ≠ b.toFinset))
    (i j : Nat) (hi : i < cliques.length) (hj : j < cliques.length)
    (hij : i ≠ j) :
    (j ∈ ((CreateCommunityGraph cliques k).getD i ([], [])).2 ↔
      ((cliques.getD i []).toFinset ∩ (cliques.getD j []).toFinset).card
        = k - 1) := by
  have hmemi : cliques.getD i [] ∈ cliques := by
    rw [List.getD_eq_getElem _ _ hi]
    exact List.getElem_mem hi
  have hmemj : cliques.getD j [] ∈ cliques := by
    rw [List.getD_eq_getElem _ _ hj]
    exact List.getElem_mem hj
  have hcpc : commonPairCount (cliques.getD i []) (cliques.getD j [])
      = ((cliques.getD i []).toFinset ∩ (cliques.getD j []).toFinset).card :=
    commonPairCount_eq_card_inter (hnd _ hmemi) (hnd _ hmemj)
  have hne : (cliques.getD i []).toFinset ≠ (cliques.getD j []).toFinset := by
    have hpw := List.pairwise_iff_getElem.mp hdedup
    rw [List.getD_eq_getElem _ _ hi, List.getD_eq_getElem _ _ hj]
    rcases Nat.lt_or_ge i j with hlt | hge
    · exact hpw i j hi hj hlt
    · have hlt2 : j < i := by omega
      exact fun heq => (hpw j i hj hi hlt2) heq.symm
  have hcap : ((cliques.getD i []).toFinset ∩ (cliques.getD j []).toFinset).card
      ≤ k - 1 := by
    by_contra hcon
    push_neg at hcon
    have hcardi : (cliques.getD i []).toFinset.card = k := by
      rw [List.toFinset_card_of_nodup (hnd _ hmemi), hlen _ hmemi]
    have hcardj : (cliques.getD j []).toFinset.card = k := by
      rw [List.toFinset_card_of_nodup (hnd _ hmemj), hlen _ hmemj]
    have hle : ((cliques.getD i []).toFinset ∩ (cliques.getD j []).toFinset).card ≤ k :=
      le_trans (Finset.card_le_card Finset.inter_subset_left) (le_of_eq hcardi)
    have heqi : (cliques.getD i []).toFinset ∩ (cliques.getD j []).toFinset
        = (cliques.getD i []).toFinset :=
      Finset.eq_of_subset_of_card_le Finset.inter_subset_left (by omega)
    have heqj : (cliques.getD i []).toFinset ∩ (cliques.getD j []).toFinset
        = (cliques.getD j []).toFinset :=
      Finset.eq_of_subset_of_card_le Finset.inter_subset_right (by omega)
    exact hne (by rw [← heqi, heqj])
  rw [createCommunityGraph_getD hi]
  dsimp only
  rw [mem_communityNeighbors]
  unfold Kminus1CommonNodes
  constructor
  · rintro ⟨_, _, h3⟩
    rw [decide_eq_true_eq] at h3
    rw [hcpc] at h3
    omega
  · intro hcard
    refine ⟨hj, fun hji => hij hji.symm, ?_⟩
    rw [decide_eq_true_eq, hcpc, hcard]
    omega

/-- Witness for C5: two overlapping triangles sharing edge \{2, 3\}. -/
theorem C5_community_edges_witness :
    (2 ≤ 3 ∧ (∀ c ∈ ([[1, 2, 3], [2, 3, 4]] : List (List Nat)), c.length = 3) ∧
      (∀ c ∈ ([[1, 2, 3], [2, 3, 4]] : List (List Nat)), c.Nodup) ∧
      ([[1, 2, 3], [2, 3, 4]] : List (List Nat)).Pairwise
        (fun a b => a.toFinset ≠ b.toFinset) ∧
      (0 : Nat) ≠ 1) ∧
    (1 ∈ ((CreateCommunityGraph [[1, 2, 3], [2, 3, 4]] 3).getD 0 ([], [])).2 ↔
      ((([[1, 2, 3], [2, 3, 4]] : List (List Nat)).getD 0 []).toFinset ∩
        (([[1, 2, 3], [2, 3, 4]] : List (List Nat)).getD 1 []).toFinset).card
        = 3 - 1) :=
  ⟨⟨by decide, by decide, by decide, by decide, by decide⟩,
    C5_community_edges [[1, 2, 3], [2, 3, 4]] 3 (by decide) (by decide)
      (by decide) (by decide) 0 1 (by decide) (by decide) (by decide)⟩


/-! ### The model-graph end-to-end run (claim C2) -/

/-- C2 counterexample: running the pipeline on the documented model graph
with k = 3 produces the clique \{v8, v9, v10\} (nodes v8, v9, v10 are
mutually connected in `main`'s graph) and a community graph with 8
nodes, not 6. -/
theorem C2_counterexample :
    ({8, 9, 10} : Finset Nat) ∈
        (runPipeline modelAdj modelNodes 3).map List.toFinset ∧
    (CreateCommunityGraph (runPipeline modelAdj modelNodes 3) 3).length = 8 := by
  constructor
  · decide
  · decide

/-- C2 (amended): the global clique list of the model-graph run with
k = 3 consists of exactly the eight triangles of the model graph —
the six listed in the claim plus \{v4, v6, v7\} and \{v8, v9, v10\} —
each exactly once, and the community graph has exactly 8 nodes. -/
theorem C2_model_graph_run :
    ((runPipeline modelAdj modelNodes 3).map List.toFinset).toFinset
      = ({ {1, 2, 3}, {3, 4, 5}, {4, 5, 6}, {4, 5, 7}, {4, 6, 7}, {5, 6, 7},
          {6, 7, 8}, {8, 9, 10} } : Finset (Finset Nat)) ∧
    (runPipeline modelAdj modelNodes 3).length = 8 ∧
    (CreateCommunityGraph (runPipeline modelAdj modelNodes 3) 3).length = 8 ∧
    ({8, 9, 10} : Finset Nat) ∈
      (runPipeline modelAdj modelNodes 3).map List.toFinset := by
  refine ⟨by decide, by decide, by decide, by decide⟩

/-! ### The graph-definition parser (claim C9) -/

/-- C9: the parser accepts a graph definition which declares the label
v1 twice; it returns a three-node graph (two nodes labelled v1) and no
error, because the duplicate check of `ParseGraphDefFile` tests
`graph == nil` right after appending and therefore never fires. -/
theorem C9_duplicate_label_accepted :
    ParseGraphDef [("v1", ["v2"]), ("v2", ["v1"]), ("v1", ["v2"])]
      = .ok (["v1", "v2", "v1"], [[1], [0], [1]]) := by rfl

/-! ### The frame property of the candidate generator (claim C10) -/

theorem store_getD_append {st t : Store} {id : Nat} (h : id < st.length) :
    (st ++ t).getD id [] = st.getD id [] := by
  rw [List.getD_eq_getElem _ _ (by rw [List.length_append]; omega),
    List.getD_eq_getElem _ _ h]
  exact List.getElem_append_left h

theorem foldl_store_ext {β : Type} (f : List Slice × Store → β → List Slice × Store)
    (hf : ∀ p x, ∃ t, (f p x).2 = p.2 ++ t) :
    ∀ (l : List β) (p : List Slice × Store), ∃ t, (l.foldl f p).2 = p.2 ++ t := by
  intro l
  induction l with
  | nil => intro p; exact ⟨[], by simp⟩
  | cons x xs ih =>
    intro p
    obtain ⟨t1, ht1⟩ := hf p x
    obtain ⟨t2, ht2⟩ := ih (f p x)
    exact ⟨t1 ++ t2, by rw [List.foldl_cons, ht2, ht1, List.append_assoc]⟩

theorem addCandS_ext (node : Nat) (item : Slice) (p : List Slice × Store)
    (i : Nat) : ∃ t, (addCandS node item p i).2 = p.2 ++ t := by
  unfold addCandS
  dsimp only
  split
  · exact ⟨_, rfl⟩
  · exact ⟨_, rfl⟩

theorem substOneS_ext (node : Nat) (item : Slice) (p : List Slice × Store) :
    ∃ t, (substOneS node item p).2 = p.2 ++ t :=
  foldl_store_ext _ (addCandS_ext node item) _ p

theorem substAllS_ext (node : Nat) (cl : List Slice) (st : Store) :
    ∃ t, (substAllS node cl st).2 = st ++ t := by
  unfold substAllS
  exact foldl_store_ext _ (fun p item => substOneS_ext node item p) cl (cl, st)

theorem gccS_ext (k arr : Nat) :
    ∀ (n off : Nat) (st : Store),
      ∃ t, (GetCliqueCandidatesS k arr off n st).2 = st ++ t := by
  intro n
  induction n with
  | zero => intro off st; exact ⟨[], by simp [GetCliqueCandidatesS]⟩
  | succ n ih =>
    intro off st
    rw [GetCliqueCandidatesS]
    split
    · exact ⟨[], (List.append_nil st).symm⟩
    · split
      · exact ⟨[], (List.append_nil st).symm⟩
      · split
        · exact ⟨[], (List.append_nil st).symm⟩
        · dsimp only
          obtain ⟨t1, ht1⟩ := ih (off + 1) st
          obtain ⟨t2, ht2⟩ := substAllS_ext ((st.getD arr []).getD off 0)
            (GetCliqueCandidatesS k arr (off + 1) n st).1
            (GetCliqueCandidatesS k arr (off + 1) n st).2
          exact ⟨t1 ++ t2, by rw [ht2, ht1, List.append_assoc]⟩

/-- C10: `GetCliqueCandidates` never writes through its input slice: the
store after the call extends the store before it, so every array that
existed before — in particular the input slice's backing array — holds
the same node sequence afterwards. -/
theorem C10_input_slice_unchanged (k : Nat) (nl : Slice) (st : Store)
    (harr : nl.arr < st.length) :
    sliceData (GetCliqueCandidatesS k nl.arr nl.off nl.len st).2 nl
      = sliceData st nl := by
  obtain ⟨t, ht⟩ := gccS_ext k nl.arr nl.len nl.off st
  rw [ht]
  unfold sliceData
  rw [store_getD_append harr]

/-- Witness for C10: a three-node neighbor slice in a one-array store. -/
theorem C10_input_slice_unchanged_witness :
    (⟨0, 0, 3⟩ : Slice).arr < ([[5, 6, 7]] : Store).length ∧
    sliceData (GetCliqueCandidatesS 3 0 0 3 [[5, 6, 7]]).2 ⟨0, 0, 3⟩
      = sliceData [[5, 6, 7]] ⟨0, 0, 3⟩ :=
  ⟨by decide, C10_input_slice_unchanged 3 ⟨0, 0, 3⟩ [[5, 6, 7]] (by decide)⟩

/-- Sanity check: on v5's neighbor list of the model graph the
slice-level candidate generator computes the same candidates as the
pure embedding. -/
theorem gccS_agrees_on_model_neighbors :
    ((GetCliqueCandidatesS 3 0 0 4 [[3, 4, 6, 7]]).1).map
        (sliceData (GetCliqueCandidatesS 3 0 0 4 [[3, 4, 6, 7]]).2)
      = GetCliqueCandidates 3 [3, 4, 6, 7] := by decide

end CPM
